import Mathlib

set_option maxHeartbeats 1000000

/-!
Verification of the conversational Q&A agent in `contec_bot.py`.

The file embeds, as executable Lean definitions, the logical core of the
program: the approximate matcher built on Python `difflib`
(`find_best_match`), the exact case-insensitive lookup (`get_answer`), the
knowledge-base persistence boundary (`load_knowledge_base`,
`save_knowledge_base`), and the per-session dialog state machine of
`display_chat` (split here into `handleInput`, `trainSubmit`,
`trainCancel`, which model the three entry points of one user turn).

Numeric similarity scores are modelled as exact rationals (`ℚ`); the
Python reference computes them in IEEE double precision, which agrees
with the exact value at every input whose score is not within one ulp of
the cutoff, in particular on all inputs used below.
-/

namespace ContecBot

/-! ## The matcher: `difflib.SequenceMatcher` as called by `get_close_matches`

`find_best_match` calls `get_close_matches(user_question, questions, n=1,
cutoff=0.6)`.  `get_close_matches` sets `seq2 := word` (the query) and, for
each candidate `x`, `seq1 := x`, keeping `x` when
`real_quick_ratio() ≥ cutoff` and `quick_ratio() ≥ cutoff` and
`ratio() ≥ cutoff`, and finally returns the largest `(ratio, x)` pair.
Throughout, `a` is the candidate sequence and `b` is the query. -/

/-- Default character used only to totalize indexing; every guarded access
in the development is in range, as Python list indexing always is in
`difflib`. -/
def dfltChar : Char := ' '

/-- Junk predicate of the `SequenceMatcher` used by `get_close_matches`:
it constructs `SequenceMatcher()` with `isjunk = None`, so `bjunk` is empty. -/
def bjunk : Char → Bool := fun _ => false

/-- Ascending positions of character `c` in `b`, after the `autojunk` purge
of popular elements: mirrors `SequenceMatcher.__chain_b` with
`ntest = len(b) // 100 + 1` once `len(b) ≥ 200`. -/
def b2j (b : List Char) (c : Char) : List Nat :=
  let idxs := (List.range b.length).filter (fun j => decide (b.get? j = some c))
  if 200 ≤ b.length ∧ b.length / 100 + 1 < idxs.length then [] else idxs

/-- One iteration of the inner `for j in b2j.get(a[i], nothing)` loop of
`SequenceMatcher.find_longest_match`.  `old` is the previous row `j2len`;
the accumulator carries the best `(i, j, size)` triple so far and the row
`newj2len` being built.  The `j < blo` guard is Python's `continue`; the
`j ≥ bhi` guard is its `break` (equivalent to skipping, as positions are
ascending). -/
def innerStep (old : Nat → Nat) (blo bhi i : Nat)
    (acc : (Nat × Nat × Nat) × (Nat → Nat)) (j : Nat) :
    (Nat × Nat × Nat) × (Nat → Nat) :=
  if blo ≤ j ∧ j < bhi then
    let k := if j = 0 then 1 else old (j - 1) + 1
    let nj := Function.update acc.2 j k
    if acc.1.2.2 < k then ((i + 1 - k, j + 1 - k, k), nj) else (acc.1, nj)
  else acc

/-- The body of the outer `for i in range(alo, ahi)` loop of
`find_longest_match`, for one value of `i`. -/
def innerLoop (a b : List Char) (old : Nat → Nat) (blo bhi i : Nat)
    (best : Nat × Nat × Nat) : (Nat × Nat × Nat) × (Nat → Nat) :=
  (b2j b (a.getD i dfltChar)).foldl (innerStep old blo bhi i) (best, fun _ => 0)

/-- The full `for i in range(alo, ahi)` loop of `find_longest_match`,
starting from `besti, bestj, bestsize = alo, blo, 0` and an empty `j2len`. -/
def mainLoop (a b : List Char) (alo ahi blo bhi : Nat) : Nat × Nat × Nat :=
  ((List.range' alo (ahi - alo)).foldl
    (fun (st : (Nat × Nat × Nat) × (Nat → Nat)) i =>
      innerLoop a b st.2 blo bhi i st.1)
    ((alo, blo, 0), fun _ => 0)).1

/-- The first extension loop of `find_longest_match`: extend the block
backwards over non-junk equal elements.  `fuel` bounds the iteration count;
the caller passes `fuel := besti`, which suffices since `besti` strictly
decreases and stays above `alo`. -/
def extendBack (a b : List Char) (alo blo : Nat) :
    Nat → Nat → Nat → Nat → Nat × Nat × Nat
  | 0, bi, bj, bs => (bi, bj, bs)
  | fuel + 1, bi, bj, bs =>
    if alo < bi ∧ blo < bj ∧ bjunk (b.getD (bj - 1) dfltChar) = false ∧
        a.get? (bi - 1) = b.get? (bj - 1) then
      extendBack a b alo blo fuel (bi - 1) (bj - 1) (bs + 1)
    else (bi, bj, bs)

/-- The second extension loop of `find_longest_match`: extend the block
forwards over non-junk equal elements.  The caller passes `fuel := ahi`,
which suffices since `besti + bestsize` strictly increases towards `ahi`. -/
def extendFwd (a b : List Char) (ahi bhi : Nat) :
    Nat → Nat → Nat → Nat → Nat × Nat × Nat
  | 0, bi, bj, bs => (bi, bj, bs)
  | fuel + 1, bi, bj, bs =>
    if bi + bs < ahi ∧ bj + bs < bhi ∧ bjunk (b.getD (bj + bs) dfltChar) = false ∧
        a.get? (bi + bs) = b.get? (bj + bs) then
      extendFwd a b ahi bhi fuel bi bj (bs + 1)
    else (bi, bj, bs)

/-- The third extension loop of `find_longest_match` (backwards over junk
elements).  Its guard requires `bjunk` to hold of `b[bestj-1]`; since
`isjunk = None`, the guard never fires. -/
def extendBackJunk (a b : List Char) (alo blo : Nat) :
    Nat → Nat → Nat → Nat → Nat × Nat × Nat
  | 0, bi, bj, bs => (bi, bj, bs)
  | fuel + 1, bi, bj, bs =>
    if alo < bi ∧ blo < bj ∧ bjunk (b.getD (bj - 1) dfltChar) = true ∧
        a.get? (bi - 1) = b.get? (bj - 1) then
      extendBackJunk a b alo blo fuel (bi - 1) (bj - 1) (bs + 1)
    else (bi, bj, bs)

/-- The fourth extension loop of `find_longest_match` (forwards over junk
elements); likewise never fires since `bjunk` is empty. -/
def extendFwdJunk (a b : List Char) (ahi bhi : Nat) :
    Nat → Nat → Nat → Nat → Nat × Nat × Nat
  | 0, bi, bj, bs => (bi, bj, bs)
  | fuel + 1, bi, bj, bs =>
    if bi + bs < ahi ∧ bj + bs < bhi ∧ bjunk (b.getD (bj + bs) dfltChar) = true ∧
        a.get? (bi + bs) = b.get? (bj + bs) then
      extendFwdJunk a b ahi bhi fuel bi bj (bs + 1)
    else (bi, bj, bs)

/-- `SequenceMatcher.find_longest_match(alo, ahi, blo, bhi)`: the main
dynamic-programming loop followed by the four extension loops. -/
def flm (a b : List Char) (alo ahi blo bhi : Nat) : Nat × Nat × Nat :=
  let m1 := mainLoop a b alo ahi blo bhi
  let m2 := extendBack a b alo blo m1.1 m1.1 m1.2.1 m1.2.2
  let m3 := extendFwd a b ahi bhi ahi m2.1 m2.2.1 m2.2.2
  let m4 := extendBackJunk a b alo blo m3.1 m3.1 m3.2.1 m3.2.2
  extendFwdJunk a b ahi bhi ahi m4.1 m4.2.1 m4.2.2

/-- Total size of the matching blocks of `SequenceMatcher.get_matching_blocks`
on the range `[alo, ahi) × [blo, bhi)`: the recursive decomposition around
each longest match.  (The sort-and-merge step of `get_matching_blocks`
preserves the total size, which is all `ratio()` uses.)  `fuel` bounds the
recursion depth; `(ahi - alo) + (bhi - blo)` strictly decreases at each
recursive call, so the fuel passed by `ratioMatches` never runs out. -/
def matchesSumF (a b : List Char) : Nat → Nat → Nat → Nat → Nat → Nat
  | 0, _, _, _, _ => 0
  | fuel + 1, alo, ahi, blo, bhi =>
    let r := flm a b alo ahi blo bhi
    if r.2.2 = 0 then 0
    else
      r.2.2 +
        (if alo < r.1 ∧ blo < r.2.1 then
          matchesSumF a b fuel alo r.1 blo r.2.1 else 0) +
        (if r.1 + r.2.2 < ahi ∧ r.2.1 + r.2.2 < bhi then
          matchesSumF a b fuel (r.1 + r.2.2) ahi (r.2.1 + r.2.2) bhi else 0)

/-- `sum(triple[-1] for triple in self.get_matching_blocks())`. -/
def ratioMatches (a b : List Char) : Nat :=
  matchesSumF a b (a.length + b.length + 1) 0 a.length 0 b.length

/-- `difflib._calculate_ratio(matches, length)`. -/
def calcRatio (m len : Nat) : ℚ :=
  if len = 0 then 1 else 2 * (m : ℚ) / (len : ℚ)

/-- `SequenceMatcher.ratio()` with `seq1 = a`, `seq2 = b`. -/
def ratio (a b : List Char) : ℚ :=
  calcRatio (ratioMatches a b) (a.length + b.length)

/-- The `for elt in self.a` loop of `SequenceMatcher.quick_ratio`,
with `avail` as a partial map and `fullbcount.get(elt, 0) = b.count elt`. -/
def quickMatchesAux (b : List Char) :
    List Char → (Char → Option Int) → Nat → Nat
  | [], _, m => m
  | c :: rest, avail, m =>
    let numb : Int :=
      match avail c with
      | some v => v
      | none => (b.count c : Int)
    quickMatchesAux b rest (Function.update avail c (some (numb - 1)))
      (if 0 < numb then m + 1 else m)

/-- The `matches` total computed by `SequenceMatcher.quick_ratio`. -/
def quickMatches (a b : List Char) : Nat :=
  quickMatchesAux b a (fun _ => none) 0

/-- `SequenceMatcher.quick_ratio()`. -/
def quick_ratio (a b : List Char) : ℚ :=
  calcRatio (quickMatches a b) (a.length + b.length)

/-- `SequenceMatcher.real_quick_ratio()`. -/
def real_quick_ratio (a b : List Char) : ℚ :=
  calcRatio (min a.length b.length) (a.length + b.length)

/-- The cutoff filter of `get_close_matches` (cutoff 0.6), testing the three
successively more expensive scores. -/
def cutoffTest (x w : List Char) : Prop :=
  (3 : ℚ) / 5 ≤ real_quick_ratio x w ∧
  (3 : ℚ) / 5 ≤ quick_ratio x w ∧
  (3 : ℚ) / 5 ≤ ratio x w

instance (x w : List Char) : Decidable (cutoffTest x w) := by
  unfold cutoffTest
  exact inferInstance

/-- Python string comparison `s < t`: lexicographic on the code points. -/
def charListLt : List Char → List Char → Bool
  | [], [] => false
  | [], _ :: _ => true
  | _ :: _, [] => false
  | c :: cs, d :: ds =>
    if c < d then true else if d < c then false else charListLt cs ds

/-- Strict comparison of Python `(float, str)` tuples, as used by
`heapq.nlargest` on the `(score, candidate)` pairs: lexicographic on the
score, then on the string (code-point order). -/
def pairLt (p q : ℚ × String) : Prop :=
  p.1 < q.1 ∨ (p.1 = q.1 ∧ charListLt p.2.data q.2.data = true)

instance (p q : ℚ × String) : Decidable (pairLt p q) := by
  unfold pairLt
  exact inferInstance

/-- `heapq.nlargest(1, result)` followed by taking the head: Python `max`
over the pairs, keeping the current maximum on ties. -/
def maxPair : List (ℚ × String) → Option (ℚ × String)
  | [] => none
  | p :: rest => some (rest.foldl (fun acc q => if pairLt acc q then q else acc) p)

/-- The `result` list built by the `for x in possibilities` loop of
`get_close_matches`: the `(ratio, x)` pairs of the candidates that pass the
cutoff filter, in `possibilities` order. -/
def gcmCandidates (word : String) (possibilities : List String) :
    List (ℚ × String) :=
  possibilities.filterMap fun x =>
    if cutoffTest x.data word.data then some (ratio x.data word.data, x) else none

/-- `difflib.get_close_matches(word, possibilities, n=1, cutoff=0.6)`,
returning the single best candidate (or `none` instead of `[]`). -/
def get_close_matches (word : String) (possibilities : List String) :
    Option String :=
  (maxPair (gcmCandidates word possibilities)).map Prod.snd

/-- `find_best_match(user_question, questions)` from `contec_bot.py`. -/
def find_best_match (user_question : String) (questions : List String) :
    Option String :=
  get_close_matches user_question questions

/-! ## Knowledge base and exact lookup -/

/-- One `{"question": ..., "answer": ...}` record of `knowledge_base.json`. -/
structure QA where
  question : String
  answer : String
deriving DecidableEq

/-- The `{"questions": [...]}` record that `load_knowledge_base` returns. -/
structure KnowledgeBase where
  questions : List QA
deriving DecidableEq

/-- Python `str.lower()`, modelled characterwise (`Char.toLower` lowercases
the ASCII letters; Python `str.lower` agrees on ASCII text, which is all
this program compares). -/
def strLower (s : String) : String :=
  ⟨s.data.map Char.toLower⟩

/-- Modelled from the spec: the "trim" half of the spec's input
normalization ("trim, lowercase") — Python `str.strip()`, removing leading
and trailing whitespace.  The source code of `display_chat` performs no
trimming; this definition exists to state the spec's claimed normalization. -/
def strTrim (s : String) : String :=
  ⟨((s.data.dropWhile Char.isWhitespace).reverse.dropWhile
      Char.isWhitespace).reverse⟩

/-- `get_answer(question, knowledge_base)` from `contec_bot.py`: first entry
whose question matches case-insensitively. -/
def get_answer (question : String) (kb : KnowledgeBase) : Option String :=
  kb.questions.findSome? fun q =>
    if strLower q.question = strLower question then some q.answer else none

/-! ## Persistence boundary

The persistent medium (`knowledge_base.json`) is modelled by its three
observable parse outcomes: the file is absent (`open` raises
`FileNotFoundError`), present but unparseable (`json.load` raises
`JSONDecodeError`), or stores a knowledge base. -/

/-- Observable state of the persistent medium. -/
inductive MediumState where
  | absent : MediumState
  | corrupt : MediumState
  | stores : KnowledgeBase → MediumState
deriving DecidableEq

/-- `load_knowledge_base(file_path)` from `contec_bot.py`; the boolean
records whether the `st.error` branch (corrupt store reported) ran.  The
function is total: neither caught exception escapes. -/
def load_knowledge_base : MediumState → KnowledgeBase × Bool
  | .absent => (⟨[]⟩, false)
  | .corrupt => (⟨[]⟩, true)
  | .stores kb => (kb, false)

/-- The primitive medium operations performed by `save_knowledge_base`:
`open(file_path, "w")` truncates the file in place (an empty file is
unparseable JSON, hence `corrupt`), then `json.dump` writes the full
serialization. -/
inductive SaveOp where
  | truncate : SaveOp
  | writeAll : KnowledgeBase → SaveOp
deriving DecidableEq

/-- Effect of one primitive operation on the medium. -/
def applyOp : MediumState → SaveOp → MediumState
  | _, .truncate => .corrupt
  | _, .writeAll kb => .stores kb

/-- Run a list of primitive operations on the medium. -/
def runOps (m : MediumState) (ops : List SaveOp) : MediumState :=
  ops.foldl applyOp m

/-- The operation sequence of `save_knowledge_base(file_path, data)`. -/
def save_ops (kb : KnowledgeBase) : List SaveOp :=
  [.truncate, .writeAll kb]

/-- `save_knowledge_base` run to completion. -/
def save_knowledge_base (m : MediumState) (kb : KnowledgeBase) : MediumState :=
  runOps m (save_ops kb)

/-! ## The dialog session and the controller (`display_chat`) -/

/-- Message roles used in `st.session_state.messages`. -/
inductive Role where
  | user : Role
  | assistant : Role
deriving DecidableEq

/-- One entry of `st.session_state.messages`. -/
structure Message where
  role : Role
  content : String
deriving DecidableEq

/-- The per-session mutable state initialized at the top of `display_chat`. -/
structure SessionState where
  chat_active : Bool
  messages : List Message
  awaiting_answer : Bool
  current_question : String
  first_interaction : Bool
deriving DecidableEq

/-- The freshly initialized session (`display_chat`, first run). -/
def SessionState.init : SessionState :=
  { chat_active := true
    messages := []
    awaiting_answer := false
    current_question := ""
    first_interaction := true }

/-- The three lifecycle phases of the specification, read off the session
state: `Ended` when `chat_active` is cleared, `AwaitingTraining` when a
question is pending, `Active` otherwise. -/
inductive Phase where
  | Active : Phase
  | AwaitingTraining : Phase
  | Ended : Phase
deriving DecidableEq

/-- Derived phase of a session state. -/
def phase (st : SessionState) : Phase :=
  if st.chat_active then
    (if st.current_question = "" then .Active else .AwaitingTraining)
  else .Ended

/-- The farewell message of the quit branch. -/
def farewellMsg : String :=
  "Goodbye! Please refresh the page to start a new conversation."

/-- The no-match reply offering training. -/
def unknownMsg : String :=
  "I don\x27t know the answer. Would you like to train me? (Authenticated users only)"

/-- The confirmation appended after a successful training commit. -/
def learnedMsg (q : String) : String :=
  "Thank you! I\x27ve learned: \x27" ++ q ++ "\x27"

/-- The reply appended on training cancellation. -/
def continueMsg : String :=
  "Okay, let\x27s continue our conversation."

/-- Text appended for a matched question: the stored answer.  `get_answer`
cannot return `none` here (proved below); Python would render the literal
`None` in that unreachable case. -/
def answerText (bm : String) (kb : KnowledgeBase) : String :=
  match get_answer bm kb with
  | some ans => ans
  | none => "None"

/-- One user-input turn of `display_chat` (the `if prompt := st.chat_input`
block), given the knowledge base loaded for this turn.  The early `return`
when `chat_active` is false precedes the input widget; an empty submission
is falsy and is ignored; the `st.rerun()` calls abort the handler, so the
quit branch never falls through.  The `awaiting_answer` flag is consulted
but never set, exactly as in the source. -/
def handleInput (kb : KnowledgeBase) (st : SessionState) (prompt : String) :
    SessionState :=
  if st.chat_active = false then st
  else if prompt = "" then st
  else
    let st1 := { st with first_interaction := false }
    if strLower prompt = "quit" then
      { st1 with
        messages := st1.messages ++
          [⟨.user, prompt⟩, ⟨.assistant, farewellMsg⟩]
        chat_active := false }
    else
      let st2 := { st1 with messages := st1.messages ++ [⟨.user, prompt⟩] }
      if st2.awaiting_answer = false then
        match find_best_match prompt (kb.questions.map QA.question) with
        | some bm =>
            { st2 with messages := st2.messages ++ [⟨.assistant, answerText bm kb⟩] }
        | none =>
            { st2 with
              messages := st2.messages ++ [⟨.assistant, unknownMsg⟩]
              current_question := prompt }
      else st2

/-- Whether the training form is rendered: `display_chat` reaches the form
only past the `chat_active` early return, and only when
`st.session_state.current_question and check_password()` holds. -/
def trainingFormExposed (st : SessionState) (authorized : Bool) : Bool :=
  st.chat_active && (decide (st.current_question ≠ "")) && authorized

/-- The `submit` branch of the training form (`if submit and new_answer`),
guarded exactly as the source: the form exists only when a question is
pending and the actor is authenticated, and the branch fires only for a
truthy (non-empty) answer.  Returns the updated session and knowledge base. -/
def trainSubmit (kb : KnowledgeBase) (st : SessionState) (new_answer : String)
    (authorized : Bool) : SessionState × KnowledgeBase :=
  if st.chat_active = false then (st, kb)
  else if st.current_question ≠ "" ∧ authorized = true ∧ new_answer ≠ "" then
    ({ st with
        messages := st.messages ++ [⟨.assistant, learnedMsg st.current_question⟩]
        awaiting_answer := false
        current_question := "" },
      ⟨kb.questions ++ [⟨st.current_question, new_answer⟩]⟩)
  else (st, kb)

/-- The `cancel` branch of the training form. -/
def trainCancel (kb : KnowledgeBase) (st : SessionState) (authorized : Bool) :
    SessionState × KnowledgeBase :=
  if st.chat_active = false then (st, kb)
  else if st.current_question ≠ "" ∧ authorized = true then
    ({ st with
        messages := st.messages ++ [⟨.assistant, continueMsg⟩]
        awaiting_answer := false
        current_question := "" },
      kb)
  else (st, kb)

/-- The `submit` branch together with its persistence call, at operation
granularity: `completed` is the number of primitive medium operations of
`save_knowledge_base` that finish before any failure.  If the save does not
complete (`completed < 2`), the exception propagates and the session
mutations after the `save_knowledge_base` call never run.  Returns the
session and the medium. -/
def trainSubmitSteps (m : MediumState) (kb : KnowledgeBase) (st : SessionState)
    (new_answer : String) (authorized : Bool) (completed : Nat) :
    SessionState × MediumState :=
  if st.chat_active = false then (st, m)
  else if st.current_question ≠ "" ∧ authorized = true ∧ new_answer ≠ "" then
    let kb2 : KnowledgeBase := ⟨kb.questions ++ [⟨st.current_question, new_answer⟩]⟩
    if 2 ≤ completed then
      ({ st with
          messages := st.messages ++ [⟨.assistant, learnedMsg st.current_question⟩]
          awaiting_answer := false
          current_question := "" },
        runOps m (save_ops kb2))
    else (st, runOps m ((save_ops kb2).take completed))
  else (st, m)

/-- The state invariant claimed by the specification: the pending question
is set iff the phase is `AwaitingTraining`. -/
def pendingInvariant (st : SessionState) : Prop :=
  st.current_question ≠ "" ↔ phase st = .AwaitingTraining

instance (st : SessionState) : Decidable (pendingInvariant st) := by
  unfold pendingInvariant
  exact inferInstance

/-! ## Invariant predicates used by the matcher proofs -/

/-- The segments of length `k` of `a` at `i` and of `b` at `j` coincide. -/
def SegEq (a b : List Char) (i j k : Nat) : Prop :=
  ∀ t, t < k → a.get? (i + t) = b.get? (j + t)

/-- Invariant of the best triple `(besti, bestj, bestsize)` inside
`find_longest_match` on the range `[alo, ahi) × [blo, bhi)`: the block lies
inside the range and matches. -/
def BestInv (a b : List Char) (alo ahi blo bhi : Nat) (r : Nat × Nat × Nat) :
    Prop :=
  alo ≤ r.1 ∧ blo ≤ r.2.1 ∧ r.1 + r.2.2 ≤ ahi ∧ r.2.1 + r.2.2 ≤ bhi ∧
    SegEq a b r.1 r.2.1 r.2.2

/-- Invariant of the row `j2len` after the outer loop has processed all
`i' < iNext`: a nonzero entry at `j` records a match of that length ending
at `a[iNext - 1]` and `b[j]`, lying inside the range. -/
def J2Inv (a b : List Char) (alo blo bhi iNext : Nat) (f : Nat → Nat) : Prop :=
  ∀ j, f j ≠ 0 →
    alo + f j ≤ iNext ∧ blo + f j ≤ j + 1 ∧ j < bhi ∧
      SegEq a b (iNext - f j) (j + 1 - f j) (f j)

/-- The multiset of characters of the slice `x[lo:hi]`. -/
def mslice (x : List Char) (lo hi : Nat) : Multiset Char :=
  (((x.drop lo).take (hi - lo) : List Char) : Multiset Char)

/-! ## Generic fold lemmas -/

theorem foldl_inv {α β : Type} (P : β → Prop) (f : β → α → β)
    (l : List α) (init : β) (h0 : P init)
    (hstep : ∀ acc x, x ∈ l → P acc → P (f acc x)) : P (l.foldl f init) := by
  induction l generalizing init with
  | nil => simpa using h0
  | cons a t ih =>
    simp only [List.foldl_cons]
    exact ih (f init a) (hstep init a (by simp) h0)
      (fun acc x hx hacc => hstep acc x (by simp [hx]) hacc)

theorem range'_foldl_inv {γ : Type} (P : Nat → γ → Prop) (f : γ → Nat → γ)
    (n : Nat) :
    ∀ (s : Nat) (init : γ), P s init →
      (∀ i acc, s ≤ i → i < s + n → P i acc → P (i + 1) (f acc i)) →
      P (s + n) ((List.range' s n).foldl f init) := by
  induction n with
  | zero => intro s init h0 _; simpa using h0
  | succ n ih =>
    intro s init h0 hstep
    have hr : List.range' s (n + 1) = s :: List.range' (s + 1) n := rfl
    rw [hr]
    simp only [List.foldl_cons]
    have h1 : P (s + 1) (f init s) := hstep s init le_rfl (by omega) h0
    have h2 := ih (s + 1) (f init s) h1
      (fun i acc hi hi2 hacc => hstep i acc (by omega) (by omega) hacc)
    have he : s + 1 + n = s + (n + 1) := by omega
    rwa [he] at h2

/-! ## Properties of `b2j` and `find_longest_match` -/

theorem b2j_mem {b : List Char} {c : Char} {j : Nat} (h : j ∈ b2j b c) :
    b.get? j = some c := by
  simp only [b2j] at h
  split at h
  · simp at h
  · exact of_decide_eq_true (List.mem_filter.1 h).2

theorem get?_eq_some_getD {a : List Char} {i : Nat} (h : i < a.length) :
    a.get? i = some (a.getD i dfltChar) := by
  cases hg : a.get? i with
  | none =>
      rw [List.get?_eq_none] at hg
      omega
  | some x =>
      have hg2 : a[i]? = some x := by
        rw [← List.get?_eq_getElem?]
        exact hg
      have : a.getD i dfltChar = x := by
        simp [List.getD_eq_getElem?_getD, hg2]
      rw [this]

theorem innerStep_inv {a b : List Char} {alo ahi blo bhi i : Nat}
    (hia : alo ≤ i) (hi2 : i < ahi)
    {old : Nat → Nat} (hold : J2Inv a b alo blo bhi i old)
    {c : Char} (hai : a.get? i = some c)
    {acc : (Nat × Nat × Nat) × (Nat → Nat)}
    (hb : BestInv a b alo ahi blo bhi acc.1)
    (hj2 : J2Inv a b alo blo bhi (i + 1) acc.2)
    {j : Nat} (hbj : b.get? j = some c) :
    BestInv a b alo ahi blo bhi (innerStep old blo bhi i acc j).1 ∧
      J2Inv a b alo blo bhi (i + 1) (innerStep old blo bhi i acc j).2 := by
  simp only [innerStep]
  by_cases hg : blo ≤ j ∧ j < bhi
  case neg =>
    rw [if_neg hg]
    exact ⟨hb, hj2⟩
  case pos =>
    rw [if_pos hg]
    obtain ⟨hblo, hbhi⟩ := hg
    set k := if j = 0 then 1 else old (j - 1) + 1 with hk
    have hk1 : alo + k ≤ i + 1 := by
      rw [hk]
      split
      · omega
      · by_cases h0 : old (j - 1) = 0
        · rw [h0]
          omega
        · have := (hold (j - 1) h0).1
          omega
    have hk2 : blo + k ≤ j + 1 := by
      rw [hk]
      split
      · rename_i hj0
        omega
      · by_cases h0 : old (j - 1) = 0
        · rw [h0]
          omega
        · have := (hold (j - 1) h0).2.1
          omega
    have hkpos : 1 ≤ k := by
      rw [hk]
      split <;> omega
    have hkseg : SegEq a b (i + 1 - k) (j + 1 - k) k := by
      intro t ht
      by_cases hlast : t = k - 1
      · subst hlast
        have e1 : i + 1 - k + (k - 1) = i := by omega
        have e2 : j + 1 - k + (k - 1) = j := by omega
        rw [e1, e2, hai, hbj]
      · have ht2 : t < k - 1 := by omega
        have hkge : 2 ≤ k := by omega
        have hj0 : ¬ j = 0 := by
          intro h0
          have : k = 1 := by rw [hk, if_pos h0]
          omega
        have hko : old (j - 1) = k - 1 := by
          have : k = old (j - 1) + 1 := by rw [hk, if_neg hj0]
          omega
        have h0 : old (j - 1) ≠ 0 := by omega
        obtain ⟨hA, hB, hC, hD⟩ := hold (j - 1) h0
        rw [hko] at hA hB hD
        have e1 : i + 1 - k + t = i - (k - 1) + t := by omega
        have e2 : j + 1 - k + t = j - 1 + 1 - (k - 1) + t := by omega
        rw [e1, e2]
        exact hD t (by omega)
    have hnj : J2Inv a b alo blo bhi (i + 1) (Function.update acc.2 j k) := by
      intro j' hne
      rw [Function.update_apply] at hne ⊢
      by_cases hjj : j' = j
      · rw [if_pos hjj] at hne ⊢
        subst hjj
        exact ⟨hk1, hk2, hbhi, hkseg⟩
      · rw [if_neg hjj] at hne ⊢
        exact hj2 j' hne
    by_cases hbk : acc.1.2.2 < k
    · rw [if_pos hbk]
      refine ⟨⟨?_, ?_, ?_, ?_, ?_⟩, hnj⟩
      · show alo ≤ i + 1 - k
        omega
      · show blo ≤ j + 1 - k
        omega
      · show i + 1 - k + k ≤ ahi
        omega
      · show j + 1 - k + k ≤ bhi
        omega
      · show SegEq a b (i + 1 - k) (j + 1 - k) k
        exact hkseg
    · rw [if_neg hbk]
      exact ⟨hb, hnj⟩

theorem innerLoop_inv {a b : List Char} {alo ahi blo bhi i : Nat}
    (ha : ahi ≤ a.length) (hia : alo ≤ i) (hi2 : i < ahi)
    {old : Nat → Nat} (hold : J2Inv a b alo blo bhi i old)
    {best : Nat × Nat × Nat} (hb : BestInv a b alo ahi blo bhi best) :
    BestInv a b alo ahi blo bhi (innerLoop a b old blo bhi i best).1 ∧
      J2Inv a b alo blo bhi (i + 1) (innerLoop a b old blo bhi i best).2 := by
  have hai : a.get? i = some (a.getD i dfltChar) := get?_eq_some_getD (by omega)
  unfold innerLoop
  refine foldl_inv
    (fun acc => BestInv a b alo ahi blo bhi acc.1 ∧
      J2Inv a b alo blo bhi (i + 1) acc.2)
    (innerStep old blo bhi i) (b2j b (a.getD i dfltChar)) (best, fun _ => 0)
    ⟨hb, fun j hne => absurd rfl hne⟩ ?_
  intro acc j hjmem hacc
  exact innerStep_inv hia hi2 hold hai hacc.1 hacc.2 (b2j_mem hjmem)

theorem mainLoop_inv {a b : List Char} {alo ahi blo bhi : Nat}
    (h1 : alo ≤ ahi) (ha : ahi ≤ a.length) (h3 : blo ≤ bhi) :
    BestInv a b alo ahi blo bhi (mainLoop a b alo ahi blo bhi) := by
  unfold mainLoop
  have h := range'_foldl_inv
    (fun n st => BestInv a b alo ahi blo bhi st.1 ∧ J2Inv a b alo blo bhi n st.2)
    (fun st i => innerLoop a b st.2 blo bhi i st.1)
    (ahi - alo) alo ((alo, blo, 0), fun _ => 0)
    ⟨⟨le_rfl, le_rfl, (show alo + 0 ≤ ahi by omega), (show blo + 0 ≤ bhi by omega),
        fun t ht => absurd ht (show ¬ t < 0 by omega)⟩,
      fun j hne => absurd rfl hne⟩
    (fun i acc hi hi2 hacc => innerLoop_inv ha hi (by omega) hacc.2 hacc.1)
  exact ((by omega : alo + (ahi - alo) = ahi) ▸ h).1

theorem extendBack_inv {a b : List Char} {alo ahi blo bhi : Nat} :
    ∀ (fuel bi bj bs : Nat), BestInv a b alo ahi blo bhi (bi, bj, bs) →
      BestInv a b alo ahi blo bhi (extendBack a b alo blo fuel bi bj bs) := by
  intro fuel
  induction fuel with
  | zero => exact fun bi bj bs h => h
  | succ fuel ih =>
    intro bi bj bs h
    simp only [extendBack]
    split
    · rename_i hc
      obtain ⟨hc1, hc2, _, hc4⟩ := hc
      have h1 : alo ≤ bi := h.1
      have h2 : blo ≤ bj := h.2.1
      have h3 : bi + bs ≤ ahi := h.2.2.1
      have h4 : bj + bs ≤ bhi := h.2.2.2.1
      have h5 : SegEq a b bi bj bs := h.2.2.2.2
      refine ih (bi - 1) (bj - 1) (bs + 1)
        ⟨(show alo ≤ bi - 1 by omega), (show blo ≤ bj - 1 by omega),
          (show bi - 1 + (bs + 1) ≤ ahi by omega),
          (show bj - 1 + (bs + 1) ≤ bhi by omega), ?_⟩
      show SegEq a b (bi - 1) (bj - 1) (bs + 1)
      intro t ht
      by_cases ht0 : t = 0
      · subst ht0
        simpa using hc4
      · have e1 : bi - 1 + t = bi + (t - 1) := by omega
        have e2 : bj - 1 + t = bj + (t - 1) := by omega
        rw [e1, e2]
        exact h5 (t - 1) (by omega)
    · exact h

theorem extendFwd_inv {a b : List Char} {alo ahi blo bhi : Nat} :
    ∀ (fuel bi bj bs : Nat), BestInv a b alo ahi blo bhi (bi, bj, bs) →
      BestInv a b alo ahi blo bhi (extendFwd a b ahi bhi fuel bi bj bs) := by
  intro fuel
  induction fuel with
  | zero => exact fun bi bj bs h => h
  | succ fuel ih =>
    intro bi bj bs h
    simp only [extendFwd]
    split
    · rename_i hc
      obtain ⟨hc1, hc2, _, hc4⟩ := hc
      have h1 : alo ≤ bi := h.1
      have h2 : blo ≤ bj := h.2.1
      have h3 : bi + bs ≤ ahi := h.2.2.1
      have h4 : bj + bs ≤ bhi := h.2.2.2.1
      have h5 : SegEq a b bi bj bs := h.2.2.2.2
      refine ih bi bj (bs + 1)
        ⟨h1, h2, (show bi + (bs + 1) ≤ ahi by omega),
          (show bj + (bs + 1) ≤ bhi by omega), ?_⟩
      show SegEq a b bi bj (bs + 1)
      intro t ht
      by_cases hts : t = bs
      · subst hts
        exact hc4
      · exact h5 t (by omega)
    · exact h

theorem extendBackJunk_id {a b : List Char} {alo blo : Nat}
    (fuel bi bj bs : Nat) :
    extendBackJunk a b alo blo fuel bi bj bs = (bi, bj, bs) := by
  cases fuel with
  | zero => rfl
  | succ fuel => simp [extendBackJunk, bjunk]

theorem extendFwdJunk_id {a b : List Char} {ahi bhi : Nat}
    (fuel bi bj bs : Nat) :
    extendFwdJunk a b ahi bhi fuel bi bj bs = (bi, bj, bs) := by
  cases fuel with
  | zero => rfl
  | succ fuel => simp [extendFwdJunk, bjunk]

theorem flm_inv {a b : List Char} {alo ahi blo bhi : Nat}
    (h1 : alo ≤ ahi) (ha : ahi ≤ a.length) (h3 : blo ≤ bhi) :
    BestInv a b alo ahi blo bhi (flm a b alo ahi blo bhi) := by
  simp only [flm]
  rw [extendBackJunk_id, extendFwdJunk_id]
  exact extendFwd_inv _ _ _ _ (extendBack_inv _ _ _ _ (mainLoop_inv h1 ha h3))

/-! ## The matching total is bounded by the multiset intersection -/

theorem mslice_split (x : List Char) (lo mid hi : Nat) (h1 : lo ≤ mid)
    (h2 : mid ≤ hi) : mslice x lo hi = mslice x lo mid + mslice x mid hi := by
  unfold mslice
  rw [Multiset.coe_add]
  congr 1
  have e : hi - lo = (mid - lo) + (hi - mid) := by omega
  rw [e, List.take_add]
  congr 1
  have e2 : (x.drop lo).drop (mid - lo) = x.drop mid := by
    rw [List.drop_drop]
    congr 1
    omega
  rw [e2]

theorem mslice_card (x : List Char) (lo hi : Nat) (h1 : lo ≤ hi)
    (h2 : hi ≤ x.length) : Multiset.card (mslice x lo hi) = hi - lo := by
  unfold mslice
  rw [Multiset.coe_card, List.length_take, List.length_drop]
  omega

theorem mslice_eq_of_seg {a b : List Char} {i j k : Nat}
    (hseg : SegEq a b i j k) (hik : i + k ≤ a.length) :
    mslice a i (i + k) = mslice b j (j + k) := by
  unfold mslice
  have e1 : i + k - i = k := by omega
  have e2 : j + k - j = k := by omega
  rw [e1, e2]
  congr 1
  apply List.ext_get?
  intro t
  by_cases ht : t < k
  · rw [List.get?_take ht, List.get?_take ht, List.get?_drop, List.get?_drop]
    exact hseg t ht
  · have l1 : ((a.drop i).take k).get? t = none := by
      rw [List.get?_eq_none, List.length_take]
      omega
    have l2 : ((b.drop j).take k).get? t = none := by
      rw [List.get?_eq_none, List.length_take]
      omega
    rw [l1, l2]

theorem inter_card_superadd (s1 s2 t1 t2 : Multiset Char) :
    Multiset.card (s1 ∩ t1) + Multiset.card (s2 ∩ t2) ≤
      Multiset.card ((s1 + s2) ∩ (t1 + t2)) := by
  have hle : (s1 ∩ t1) + (s2 ∩ t2) ≤ (s1 + s2) ∩ (t1 + t2) := by
    rw [Multiset.le_iff_count]
    intro c
    simp only [Multiset.count_add, Multiset.count_inter]
    omega
  have hc := Multiset.card_le_card hle
  simpa using hc

theorem matchesSumF_le (a b : List Char) :
    ∀ (fuel alo ahi blo bhi : Nat), alo ≤ ahi → ahi ≤ a.length →
      blo ≤ bhi → bhi ≤ b.length →
      matchesSumF a b fuel alo ahi blo bhi ≤
        Multiset.card (mslice a alo ahi ∩ mslice b blo bhi) := by
  intro fuel
  induction fuel with
  | zero =>
    intro alo ahi blo bhi _ _ _ _
    simp [matchesSumF]
  | succ fuel ih =>
    intro alo ahi blo bhi h1 h2 h3 h4
    simp only [matchesSumF]
    set r := flm a b alo ahi blo bhi with hr
    by_cases hk0 : r.2.2 = 0
    · rw [if_pos hk0]
      exact Nat.zero_le _
    · rw [if_neg hk0]
      have hinv : BestInv a b alo ahi blo bhi r := hr ▸ flm_inv h1 h2 h3
      have hi1 : alo ≤ r.1 := hinv.1
      have hj1 : blo ≤ r.2.1 := hinv.2.1
      have hi2 : r.1 + r.2.2 ≤ ahi := hinv.2.2.1
      have hj2 : r.2.1 + r.2.2 ≤ bhi := hinv.2.2.2.1
      have hseg : SegEq a b r.1 r.2.1 r.2.2 := hinv.2.2.2.2
      have hi3 : r.1 ≤ a.length := by omega
      have hj3 : r.2.1 ≤ b.length := by omega
      have hA : mslice a alo ahi =
          mslice a alo r.1 +
            (mslice a r.1 (r.1 + r.2.2) + mslice a (r.1 + r.2.2) ahi) := by
        rw [← mslice_split a r.1 (r.1 + r.2.2) ahi (by omega) hi2]
        exact mslice_split a alo r.1 ahi hi1 (by omega)
      have hB : mslice b blo bhi =
          mslice b blo r.2.1 +
            (mslice b r.2.1 (r.2.1 + r.2.2) + mslice b (r.2.1 + r.2.2) bhi) := by
        rw [← mslice_split b r.2.1 (r.2.1 + r.2.2) bhi (by omega) hj2]
        exact mslice_split b blo r.2.1 bhi hj1 (by omega)
      have hmid : mslice a r.1 (r.1 + r.2.2) = mslice b r.2.1 (r.2.1 + r.2.2) :=
        mslice_eq_of_seg hseg (by omega)
      have hself : mslice a r.1 (r.1 + r.2.2) ∩ mslice a r.1 (r.1 + r.2.2) =
          mslice a r.1 (r.1 + r.2.2) :=
        Multiset.ext.2 fun c => by rw [Multiset.count_inter]; omega
      have hmidcard :
          Multiset.card
            (mslice a r.1 (r.1 + r.2.2) ∩ mslice b r.2.1 (r.2.1 + r.2.2)) =
            r.2.2 := by
        rw [← hmid, hself, mslice_card a r.1 (r.1 + r.2.2) (by omega) (by omega)]
        omega
      have hsup1 := inter_card_superadd (mslice a alo r.1)
        (mslice a r.1 (r.1 + r.2.2) + mslice a (r.1 + r.2.2) ahi)
        (mslice b blo r.2.1)
        (mslice b r.2.1 (r.2.1 + r.2.2) + mslice b (r.2.1 + r.2.2) bhi)
      have hsup2 := inter_card_superadd (mslice a r.1 (r.1 + r.2.2))
        (mslice a (r.1 + r.2.2) ahi) (mslice b r.2.1 (r.2.1 + r.2.2))
        (mslice b (r.2.1 + r.2.2) bhi)
      have hS1 : (if alo < r.1 ∧ blo < r.2.1 then
          matchesSumF a b fuel alo r.1 blo r.2.1 else 0) ≤
          Multiset.card (mslice a alo r.1 ∩ mslice b blo r.2.1) := by
        split
        · exact ih alo r.1 blo r.2.1 hi1 hi3 hj1 hj3
        · exact Nat.zero_le _
      have hS2 : (if r.1 + r.2.2 < ahi ∧ r.2.1 + r.2.2 < bhi then
          matchesSumF a b fuel (r.1 + r.2.2) ahi (r.2.1 + r.2.2) bhi else 0) ≤
          Multiset.card
            (mslice a (r.1 + r.2.2) ahi ∩ mslice b (r.2.1 + r.2.2) bhi) := by
        split
        · exact ih (r.1 + r.2.2) ahi (r.2.1 + r.2.2) bhi (by omega) h2 (by omega) h4
        · exact Nat.zero_le _
      rw [hA, hB]
      omega

theorem ratioMatches_le_inter (a b : List Char) :
    ratioMatches a b ≤
      Multiset.card ((a : Multiset Char) ∩ (b : Multiset Char)) := by
  have h := matchesSumF_le a b (a.length + b.length + 1) 0 a.length 0 b.length
    (Nat.zero_le _) le_rfl (Nat.zero_le _) le_rfl
  have e1 : mslice a 0 a.length = (a : Multiset Char) := by
    unfold mslice
    simp
  have e2 : mslice b 0 b.length = (b : Multiset Char) := by
    unfold mslice
    simp
  rw [e1, e2] at h
  exact h

/-! ## `quick_ratio` counts the multiset intersection -/

theorem inter_cons (c : Char) (p t : Multiset Char) :
    (c ::ₘ p) ∩ t =
      if p.count c < t.count c then c ::ₘ (p ∩ t) else p ∩ t := by
  split
  · rename_i hlt
    refine Multiset.ext.2 fun x => ?_
    by_cases hx : x = c
    · subst hx
      simp only [Multiset.count_inter, Multiset.count_cons_self]
      omega
    · simp [Multiset.count_inter, Multiset.count_cons_of_ne hx]
  · rename_i hge
    refine Multiset.ext.2 fun x => ?_
    by_cases hx : x = c
    · subst hx
      simp only [Multiset.count_inter, Multiset.count_cons_self]
      omega
    · simp [Multiset.count_inter, Multiset.count_cons_of_ne hx]

theorem inter_cons_card (c : Char) (p t : Multiset Char) :
    Multiset.card ((c ::ₘ p) ∩ t) =
      Multiset.card (p ∩ t) + (if p.count c < t.count c then 1 else 0) := by
  rw [inter_cons]
  split <;> simp

theorem quickMatchesAux_eq (b : List Char) :
    ∀ (rest p : List Char) (avail : Char → Option Int) (m : Nat),
      (∀ c, avail c = none → p.count c = 0) →
      (∀ c v, avail c = some v → v = (b.count c : Int) - (p.count c : Int)) →
      m = Multiset.card ((p : Multiset Char) ∩ (b : Multiset Char)) →
      quickMatchesAux b rest avail m =
        Multiset.card (((p ++ rest : List Char) : Multiset Char) ∩
          (b : Multiset Char)) := by
  intro rest
  induction rest with
  | nil =>
    intro p avail m h1 h2 h3
    simpa [quickMatchesAux] using h3
  | cons c rest ih =>
    intro p avail m h1 h2 h3
    simp only [quickMatchesAux]
    have hnumb : (match avail c with
        | some v => v
        | none => (b.count c : Int)) = (b.count c : Int) - (p.count c : Int) := by
      cases hav : avail c with
      | none =>
        have := h1 c hav
        simp [this]
      | some v => exact h2 c v hav
    rw [hnumb]
    have hcons : ((p ++ [c] : List Char) : Multiset Char) =
        c ::ₘ (p : Multiset Char) := by
      rw [← Multiset.coe_add, add_comm, Multiset.coe_singleton,
        Multiset.singleton_add]
    have h1' : ∀ c',
        Function.update avail c
          (some ((b.count c : Int) - (p.count c : Int) - 1)) c' = none →
        (p ++ [c]).count c' = 0 := by
      intro c' hc'
      rw [Function.update_apply] at hc'
      by_cases hcc : c' = c
      · rw [if_pos hcc] at hc'
        exact absurd hc' (by simp)
      · rw [if_neg hcc] at hc'
        have h0 := h1 c' hc'
        simp [List.count_append, h0, List.count_singleton', hcc]
    have h2' : ∀ c' v,
        Function.update avail c
          (some ((b.count c : Int) - (p.count c : Int) - 1)) c' = some v →
        v = (b.count c' : Int) - (((p ++ [c]).count c' : Nat) : Int) := by
      intro c' v hc'
      rw [Function.update_apply] at hc'
      by_cases hcc : c' = c
      · rw [if_pos hcc] at hc'
        subst hcc
        have hv : v = (b.count c' : Int) - (p.count c' : Int) - 1 := by
          exact (Option.some.injEq _ _ ▸ hc').symm ▸ rfl
        have hcnt : (p ++ [c']).count c' = p.count c' + 1 := by
          simp [List.count_append]
        rw [hcnt]
        push_cast
        omega
      · rw [if_neg hcc] at hc'
        have hv := h2 c' v hc'
        have hcnt : (p ++ [c]).count c' = p.count c' := by
          simp [List.count_append, List.count_singleton', hcc]
        rw [hcnt]
        exact hv
    have h3' : (if 0 < (b.count c : Int) - (p.count c : Int) then m + 1 else m) =
        Multiset.card (((p ++ [c] : List Char) : Multiset Char) ∩
          (b : Multiset Char)) := by
      rw [hcons, inter_cons_card, Multiset.coe_count, Multiset.coe_count, ← h3]
      have hiff : (0 < (b.count c : Int) - (p.count c : Int)) ↔
          p.count c < b.count c := by omega
      simp only [hiff]
      split <;> omega
    have hstep := ih (p ++ [c])
      (Function.update avail c
        (some ((b.count c : Int) - (p.count c : Int) - 1)))
      (if 0 < (b.count c : Int) - (p.count c : Int) then m + 1 else m)
      h1' h2' h3'
    have happ : ((p ++ [c]) ++ rest : List Char) = p ++ c :: rest := by
      simp
    rw [happ] at hstep
    exact hstep

theorem quickMatches_eq (a b : List Char) :
    quickMatches a b =
      Multiset.card ((a : Multiset Char) ∩ (b : Multiset Char)) := by
  have h := quickMatchesAux_eq b a [] (fun _ => none) 0
    (fun c _ => rfl) (fun c v hv => absurd hv (by simp)) (by simp)
  simpa using h

theorem ratioMatches_le_quickMatches (a b : List Char) :
    ratioMatches a b ≤ quickMatches a b := by
  rw [quickMatches_eq]
  exact ratioMatches_le_inter a b

theorem quickMatches_le_min (a b : List Char) :
    quickMatches a b ≤ min a.length b.length := by
  rw [quickMatches_eq]
  have h1 := Multiset.card_le_card
    (Multiset.inter_le_left (a : Multiset Char) (b : Multiset Char))
  have h2 := Multiset.card_le_card
    (Multiset.inter_le_right (a : Multiset Char) (b : Multiset Char))
  rw [Multiset.coe_card] at h1
  rw [Multiset.coe_card] at h2
  omega

/-! ## The chain `ratio ≤ quick_ratio ≤ real_quick_ratio` -/

theorem calcRatio_mono {m1 m2 : Nat} (len : Nat) (h : m1 ≤ m2) :
    calcRatio m1 len ≤ calcRatio m2 len := by
  unfold calcRatio
  split
  · exact le_rfl
  · rename_i hlen
    have hpos : (0 : ℚ) < (len : ℚ) := by
      exact_mod_cast Nat.pos_of_ne_zero hlen
    have hnum : (2 : ℚ) * (m1 : ℚ) ≤ 2 * (m2 : ℚ) := by
      have : (m1 : ℚ) ≤ (m2 : ℚ) := by exact_mod_cast h
      linarith
    exact (div_le_div_right hpos).2 hnum

theorem ratio_le_quick (a b : List Char) : ratio a b ≤ quick_ratio a b :=
  calcRatio_mono (a.length + b.length) (ratioMatches_le_quickMatches a b)

theorem quick_le_real (a b : List Char) :
    quick_ratio a b ≤ real_quick_ratio a b :=
  calcRatio_mono (a.length + b.length) (quickMatches_le_min a b)

theorem cutoffTest_iff (x w : List Char) :
    cutoffTest x w ↔ (3 : ℚ) / 5 ≤ ratio x w := by
  constructor
  · exact fun h => h.2.2
  · intro h
    exact ⟨le_trans h (le_trans (ratio_le_quick x w) (quick_le_real x w)),
      le_trans h (ratio_le_quick x w), h⟩

/-! ## Python `max` over `(score, candidate)` pairs -/

theorem charListLt_irrefl : ∀ x, charListLt x x = false := by
  intro x
  induction x with
  | nil => rfl
  | cons c cs ih => simp [charListLt, ih]

theorem charListLt_trans :
    ∀ x y z, charListLt x y = true → charListLt y z = true →
      charListLt x z = true := by
  intro x
  induction x with
  | nil =>
    intro y z h1 h2
    cases z with
    | nil =>
      cases y with
      | nil => exact h2
      | cons d ds => simp [charListLt] at h2
    | cons e es => rfl
  | cons c cs ih =>
    intro y z h1 h2
    cases y with
    | nil => simp [charListLt] at h1
    | cons d ds =>
      cases z with
      | nil => simp [charListLt] at h2
      | cons e es =>
        simp only [charListLt] at h1 h2 ⊢
        by_cases hcd : c < d
        · by_cases hde : d < e
          · rw [if_pos (lt_trans hcd hde)]
          · rw [if_neg hde] at h2
            by_cases hed : e < d
            · rw [if_pos hed] at h2
              exact absurd h2 (by simp)
            · have hdee : d = e := le_antisymm (not_lt.1 hed) (not_lt.1 hde)
              rw [if_pos (show c < e by rw [← hdee]; exact hcd)]
        · by_cases hdc : d < c
          · rw [if_neg hcd, if_pos hdc] at h1
            exact absurd h1 (by simp)
          · have hcde : c = d := le_antisymm (not_lt.1 hdc) (not_lt.1 hcd)
            rw [if_neg hcd, if_neg hdc] at h1
            by_cases hde : d < e
            · rw [if_pos (show c < e by rw [hcde]; exact hde)]
            · rw [if_neg hde] at h2
              by_cases hed : e < d
              · rw [if_pos hed] at h2
                exact absurd h2 (by simp)
              · rw [if_neg hed] at h2
                rw [if_neg (show ¬ c < e by rw [hcde]; exact hde),
                  if_neg (show ¬ e < c by rw [hcde]; exact hed)]
                exact ih ds es h1 h2

theorem charListLt_conn :
    ∀ x y, charListLt x y = false → charListLt y x = false → x = y := by
  intro x
  induction x with
  | nil =>
    intro y h1 _
    cases y with
    | nil => rfl
    | cons d ds => simp [charListLt] at h1
  | cons c cs ih =>
    intro y h1 h2
    cases y with
    | nil => simp [charListLt] at h2
    | cons d ds =>
      simp only [charListLt] at h1 h2
      by_cases hcd : c < d
      · rw [if_pos hcd] at h1
        exact absurd h1 (by simp)
      · by_cases hdc : d < c
        · rw [if_pos hdc] at h2
          exact absurd h2 (by simp)
        · have hcde : c = d := le_antisymm (not_lt.1 hdc) (not_lt.1 hcd)
          rw [if_neg hcd, if_neg hdc] at h1
          rw [if_neg hdc, if_neg hcd] at h2
          rw [hcde, ih ds h1 h2]

theorem pairLt_trans {p q r : ℚ × String} (h1 : pairLt p q) (h2 : pairLt q r) :
    pairLt p r := by
  unfold pairLt at h1 h2 ⊢
  rcases h1 with h1 | ⟨e1, s1⟩ <;> rcases h2 with h2 | ⟨e2, s2⟩
  · exact Or.inl (lt_trans h1 h2)
  · exact Or.inl (by rw [← e2]; exact h1)
  · exact Or.inl (by rw [e1]; exact h2)
  · exact Or.inr ⟨e1.trans e2, charListLt_trans _ _ _ s1 s2⟩

theorem pairLt_irrefl (p : ℚ × String) : ¬ pairLt p p := by
  unfold pairLt
  intro h
  rcases h with h | ⟨_, h⟩
  · exact lt_irrefl _ h
  · rw [charListLt_irrefl] at h
    exact absurd h (by simp)

theorem pairLt_total (p q : ℚ × String) : pairLt p q ∨ p = q ∨ pairLt q p := by
  unfold pairLt
  rcases lt_trichotomy p.1 q.1 with h | h | h
  · exact Or.inl (Or.inl h)
  · by_cases h2 : charListLt p.2.data q.2.data = true
    · exact Or.inl (Or.inr ⟨h, h2⟩)
    · by_cases h3 : charListLt q.2.data p.2.data = true
      · exact Or.inr (Or.inr (Or.inr ⟨h.symm, h3⟩))
      · have hdata : p.2.data = q.2.data :=
          charListLt_conn _ _ (Bool.not_eq_true _ ▸ h2) (Bool.not_eq_true _ ▸ h3)
        have hstr : p.2 = q.2 := congrArg String.mk hdata
        exact Or.inr (Or.inl (Prod.ext h hstr))
  · exact Or.inr (Or.inr (Or.inl h))

theorem maxPair_fold (t : List (ℚ × String)) :
    ∀ acc : ℚ × String,
      (t.foldl (fun acc q => if pairLt acc q then q else acc) acc ∈ acc :: t) ∧
      ¬ pairLt (t.foldl (fun acc q => if pairLt acc q then q else acc) acc) acc ∧
      ∀ q ∈ t,
        ¬ pairLt (t.foldl (fun acc q => if pairLt acc q then q else acc) acc) q := by
  induction t with
  | nil =>
    intro acc
    exact ⟨by simp, pairLt_irrefl acc, by simp⟩
  | cons x t ih =>
    intro acc
    simp only [List.foldl_cons]
    by_cases hax : pairLt acc x
    · rw [if_pos hax]
      obtain ⟨hmem, hnacc, hall⟩ := ih x
      refine ⟨?_, ?_, ?_⟩
      · rcases List.mem_cons.1 hmem with h | h
        · rw [h]
          simp
        · exact List.mem_cons_of_mem _ (List.mem_cons_of_mem _ h)
      · intro hFacc
        exact hnacc (pairLt_trans hFacc hax)
      · intro q hq
        rcases List.mem_cons.1 hq with h | h
        · rw [h]
          exact hnacc
        · exact hall q h
    · rw [if_neg hax]
      obtain ⟨hmem, hnacc, hall⟩ := ih acc
      refine ⟨?_, ?_, ?_⟩
      · rcases List.mem_cons.1 hmem with h | h
        · rw [h]
          simp
        · exact List.mem_cons_of_mem _ (List.mem_cons_of_mem _ h)
      · exact hnacc
      · intro q hq
        rcases List.mem_cons.1 hq with h | h
        · rw [h]
          intro hFx
          rcases pairLt_total acc x with hax2 | hax2 | hax2
          · exact hax hax2
          · rw [← hax2] at hFx
            exact hnacc hFx
          · exact hnacc (pairLt_trans hFx hax2)
        · exact hall q h

theorem maxPair_spec {l : List (ℚ × String)} {p : ℚ × String}
    (h : maxPair l = some p) : p ∈ l ∧ ∀ q ∈ l, ¬ pairLt p q := by
  cases l with
  | nil => simp [maxPair] at h
  | cons h0 t =>
    simp only [maxPair, Option.some.injEq] at h
    obtain ⟨hmem, hnacc, hall⟩ := maxPair_fold t h0
    rw [h] at hmem hnacc hall
    refine ⟨hmem, ?_⟩
    intro q hq
    rcases List.mem_cons.1 hq with hq0 | hq0
    · rw [hq0]
      exact hnacc
    · exact hall q hq0

theorem maxPair_eq_none {l : List (ℚ × String)} :
    maxPair l = none ↔ l = [] := by
  cases l <;> simp [maxPair]

/-! ## Specification of `find_best_match` -/

theorem gcmCandidates_mem {word : String} {qs : List String} {p : ℚ × String}
    (h : p ∈ gcmCandidates word qs) :
    p.2 ∈ qs ∧ cutoffTest p.2.data word.data ∧ p.1 = ratio p.2.data word.data := by
  obtain ⟨x, hx, hfx⟩ := List.mem_filterMap.1 h
  by_cases hc : cutoffTest x.data word.data
  · rw [if_pos hc] at hfx
    obtain rfl : (ratio x.data word.data, x) = p := Option.some.injEq _ _ ▸ hfx
    exact ⟨hx, hc, rfl⟩
  · rw [if_neg hc] at hfx
    exact absurd hfx (by simp)

theorem gcmCandidates_complete {word x : String} {qs : List String}
    (hx : x ∈ qs) (hc : cutoffTest x.data word.data) :
    (ratio x.data word.data, x) ∈ gcmCandidates word qs :=
  List.mem_filterMap.2 ⟨x, hx, by rw [if_pos hc]⟩

theorem fbm_none_iff (w : String) (qs : List String) :
    find_best_match w qs = none ↔
      ∀ x ∈ qs, ratio x.data w.data < 3 / 5 := by
  unfold find_best_match get_close_matches
  rw [Option.map_eq_none', maxPair_eq_none]
  constructor
  · intro h x hx
    by_contra hge
    push_neg at hge
    have hmem := gcmCandidates_complete hx ((cutoffTest_iff _ _).2 hge)
    rw [h] at hmem
    exact absurd hmem (by simp)
  · intro h
    cases hcand : gcmCandidates w qs with
    | nil => rfl
    | cons p t =>
      exfalso
      have hp : p ∈ gcmCandidates w qs := by
        rw [hcand]
        simp
      obtain ⟨hx, hc, _⟩ := gcmCandidates_mem hp
      exact absurd ((cutoffTest_iff _ _).1 hc) (not_le.2 (h p.2 hx))

theorem fbm_some_spec {w m : String} {qs : List String}
    (h : find_best_match w qs = some m) :
    m ∈ qs ∧ (3 : ℚ) / 5 ≤ ratio m.data w.data ∧
      ∀ x ∈ qs, ratio x.data w.data ≤ ratio m.data w.data ∧
        (ratio x.data w.data = ratio m.data w.data →
          charListLt m.data x.data = false) := by
  unfold find_best_match get_close_matches at h
  obtain ⟨p, hmax, hp2⟩ := Option.map_eq_some'.1 h
  obtain ⟨hpmem, hpmax⟩ := maxPair_spec hmax
  obtain ⟨hmqs, hcut, hp1⟩ := gcmCandidates_mem hpmem
  subst hp2
  have hled : (3 : ℚ) / 5 ≤ ratio p.2.data w.data := (cutoffTest_iff _ _).1 hcut
  refine ⟨hmqs, hled, ?_⟩
  intro x hx
  by_cases hcx : cutoffTest x.data w.data
  · have hxmem := gcmCandidates_complete hx hcx
    have hnlt := hpmax _ hxmem
    unfold pairLt at hnlt
    push_neg at hnlt
    obtain ⟨hnlt1, hnlt2⟩ := hnlt
    rw [hp1] at hnlt1 hnlt2
    constructor
    · exact hnlt1
    · intro he
      exact (Bool.not_eq_true _) ▸ (hnlt2 he.symm)
  · have hxlt : ratio x.data w.data < 3 / 5 :=
      not_le.1 (fun hge => hcx ((cutoffTest_iff _ _).2 hge))
    constructor
    · exact le_trans (le_of_lt hxlt) hled
    · intro he
      rw [he] at hxlt
      exact absurd hled (not_le.2 hxlt)

/-! ## Lookup lemmas for `get_answer` -/

theorem get_answer_of_mem {bm : String} {kb : KnowledgeBase}
    (h : bm ∈ kb.questions.map QA.question) :
    ∃ ans, get_answer bm kb = some ans := by
  obtain ⟨q, hq, hqe⟩ := List.mem_map.1 h
  cases hg : get_answer bm kb with
  | some ans => exact ⟨ans, rfl⟩
  | none =>
    exfalso
    unfold get_answer at hg
    have hall := List.findSome?_eq_none_iff.1 hg
    have := hall q hq
    rw [hqe] at this
    simp at this

theorem get_answer_append_fresh {kb : KnowledgeBase} {q a q' : String}
    (hfresh : ∀ e ∈ kb.questions, strLower e.question ≠ strLower q')
    (hq : strLower q = strLower q') :
    get_answer q' ⟨kb.questions ++ [⟨q, a⟩]⟩ = some a := by
  unfold get_answer
  rw [List.findSome?_append]
  have hnone : kb.questions.findSome?
      (fun e => if strLower e.question = strLower q' then some e.answer
        else none) = none :=
    List.findSome?_eq_none_iff.2 fun e he => if_neg (hfresh e he)
  rw [hnone]
  simp [List.findSome?_cons, hq]

/-! ## Phase and invariant helpers for the session machine -/

theorem phase_ended_iff (st : SessionState) :
    phase st = .Ended ↔ st.chat_active = false := by
  unfold phase
  cases h : st.chat_active with
  | false => simp
  | true =>
    simp only [if_true]
    split <;> simp

theorem phase_awaiting_iff (st : SessionState) :
    phase st = .AwaitingTraining ↔
      (st.chat_active = true ∧ st.current_question ≠ "") := by
  unfold phase
  cases h : st.chat_active with
  | false => simp
  | true =>
    simp only [if_true]
    split <;> simp_all

theorem pendingInv_handleInput (kb : KnowledgeBase) (st : SessionState)
    (p : String) (hinv : pendingInvariant st)
    (hnq : ¬ (phase st = .AwaitingTraining ∧ strLower p = "quit")) :
    pendingInvariant (handleInput kb st p) := by
  cases hca : st.chat_active with
  | false =>
    unfold handleInput
    rw [hca]
    simpa using hinv
  | true =>
    by_cases h2 : p = ""
    · unfold handleInput
      rw [hca]
      simp only [if_neg (by simp : ¬ (true = false)), if_pos h2]
      exact hinv
    · by_cases h3 : strLower p = "quit"
      · have hcq : st.current_question = "" := by
          by_contra hne
          exact hnq ⟨(phase_awaiting_iff st).2 ⟨hca, hne⟩, h3⟩
        unfold pendingInvariant phase
        simp [handleInput, hca, h2, h3, hcq]
      · unfold pendingInvariant phase at hinv ⊢
        simp only [handleInput, hca, h2, h3]
        simp only [if_neg (by simp : ¬ (true = false)),
          if_neg h2, if_neg h3]
        by_cases h4 : st.awaiting_answer = false
        · simp only [h4, if_pos rfl]
          cases hm : find_best_match p (kb.questions.map QA.question) with
          | some bm =>
            simp only [hm]
            simp
          | none =>
            simp only [hm]
            simp [h2]
        · have h4' : st.awaiting_answer = true := by
            revert h4
            cases st.awaiting_answer <;> simp
          simp only [h4']
          simp

theorem pendingInv_trainSubmit (kb : KnowledgeBase) (st : SessionState)
    (ans : String) (auth : Bool) (hinv : pendingInvariant st) :
    pendingInvariant (trainSubmit kb st ans auth).1 := by
  unfold trainSubmit
  split
  · exact hinv
  · split
    · rename_i hca hcond
      have hca' : st.chat_active = true := by
        revert hca
        cases st.chat_active <;> simp
      unfold pendingInvariant phase
      simp [hca']
    · exact hinv

theorem pendingInv_trainCancel (kb : KnowledgeBase) (st : SessionState)
    (auth : Bool) (hinv : pendingInvariant st) :
    pendingInvariant (trainCancel kb st auth).1 := by
  unfold trainCancel
  split
  · exact hinv
  · split
    · rename_i hca hcond
      have hca' : st.chat_active = true := by
        revert hca
        cases st.chat_active <;> simp
      unfold pendingInvariant phase
      simp [hca']
    · exact hinv


/-! ## Concrete evaluations of the matcher

The `Nat`-valued match totals evaluate by `decide`; the rational scores are
then computed by `norm_num`. -/

theorem ratioMatches_ab : ratioMatches "ab".data "ab".data = 2 := by decide

theorem quickMatches_ab : quickMatches "ab".data "ab".data = 2 := by decide

theorem ratio_ab : ratio "ab".data "ab".data = 1 := by
  unfold ratio
  rw [ratioMatches_ab, (show "ab".data.length + "ab".data.length = 4 by decide)]
  norm_num [calcRatio]

theorem quickR_ab : quick_ratio "ab".data "ab".data = 1 := by
  unfold quick_ratio
  rw [quickMatches_ab, (show "ab".data.length + "ab".data.length = 4 by decide)]
  norm_num [calcRatio]

theorem realR_ab : real_quick_ratio "ab".data "ab".data = 1 := by
  unfold real_quick_ratio
  rw [(show min "ab".data.length "ab".data.length = 2 by decide),
    (show "ab".data.length + "ab".data.length = 4 by decide)]
  norm_num [calcRatio]

theorem cutoff_ab : cutoffTest "ab".data "ab".data := by
  refine ⟨?_, ?_, ?_⟩
  · rw [realR_ab]
    norm_num
  · rw [quickR_ab]
    norm_num
  · rw [ratio_ab]
    norm_num

theorem fbm_ab : find_best_match "ab" ["ab"] = some "ab" := by
  unfold find_best_match get_close_matches
  have hc : gcmCandidates "ab" ["ab"] = [(ratio "ab".data "ab".data, "ab")] := by
    unfold gcmCandidates
    simp only [List.filterMap_cons, List.filterMap_nil]
    rw [if_pos cutoff_ab]
  rw [hc]
  simp [maxPair]

theorem ratioMatches_abd : ratioMatches "abd".data "abc".data = 2 := by decide

theorem ratioMatches_abe : ratioMatches "abe".data "abc".data = 2 := by decide

theorem quickMatches_abd : quickMatches "abd".data "abc".data = 2 := by decide

theorem quickMatches_abe : quickMatches "abe".data "abc".data = 2 := by decide

theorem ratio_abd : ratio "abd".data "abc".data = 2 / 3 := by
  unfold ratio
  rw [ratioMatches_abd,
    (show "abd".data.length + "abc".data.length = 6 by decide)]
  norm_num [calcRatio]

theorem ratio_abe : ratio "abe".data "abc".data = 2 / 3 := by
  unfold ratio
  rw [ratioMatches_abe,
    (show "abe".data.length + "abc".data.length = 6 by decide)]
  norm_num [calcRatio]

theorem quickR_abd : quick_ratio "abd".data "abc".data = 2 / 3 := by
  unfold quick_ratio
  rw [quickMatches_abd,
    (show "abd".data.length + "abc".data.length = 6 by decide)]
  norm_num [calcRatio]

theorem quickR_abe : quick_ratio "abe".data "abc".data = 2 / 3 := by
  unfold quick_ratio
  rw [quickMatches_abe,
    (show "abe".data.length + "abc".data.length = 6 by decide)]
  norm_num [calcRatio]

theorem realR_abd : real_quick_ratio "abd".data "abc".data = 1 := by
  unfold real_quick_ratio
  rw [(show min "abd".data.length "abc".data.length = 3 by decide),
    (show "abd".data.length + "abc".data.length = 6 by decide)]
  norm_num [calcRatio]

theorem realR_abe : real_quick_ratio "abe".data "abc".data = 1 := by
  unfold real_quick_ratio
  rw [(show min "abe".data.length "abc".data.length = 3 by decide),
    (show "abe".data.length + "abc".data.length = 6 by decide)]
  norm_num [calcRatio]

theorem cutoff_abd : cutoffTest "abd".data "abc".data := by
  refine ⟨?_, ?_, ?_⟩
  · rw [realR_abd]
    norm_num
  · rw [quickR_abd]
    norm_num
  · rw [ratio_abd]
    norm_num

theorem cutoff_abe : cutoffTest "abe".data "abc".data := by
  refine ⟨?_, ?_, ?_⟩
  · rw [realR_abe]
    norm_num
  · rw [quickR_abe]
    norm_num
  · rw [ratio_abe]
    norm_num

theorem fbm_abc : find_best_match "abc" ["abd", "abe"] = some "abe" := by
  unfold find_best_match get_close_matches
  have hc : gcmCandidates "abc" ["abd", "abe"] =
      [(ratio "abd".data "abc".data, "abd"),
        (ratio "abe".data "abc".data, "abe")] := by
    unfold gcmCandidates
    simp only [List.filterMap_cons, List.filterMap_nil]
    rw [if_pos cutoff_abd, if_pos cutoff_abe]
  rw [hc]
  have hp : pairLt (ratio "abd".data "abc".data, "abd")
      (ratio "abe".data "abc".data, "abe") := by
    right
    refine ⟨?_, by decide⟩
    show ratio "abd".data "abc".data = ratio "abe".data "abc".data
    rw [ratio_abd, ratio_abe]
  simp only [maxPair, List.foldl_cons, List.foldl_nil]
  rw [if_pos hp]
  rfl


/-! ## Claim theorems -/

/-- C1, counterexample: the biconditional "pendingQuestion is set iff the
phase is AwaitingTraining" is violated on a reachable state: asking an
unknown question ("hello" against the empty knowledge base) and then
quitting leaves the session in phase `Ended` with `current_question` still
set to "hello" — the quit branch never clears the pending question. -/
theorem C1_counterexample :
    ¬ pendingInvariant
      (handleInput ⟨[]⟩ (handleInput ⟨[]⟩ SessionState.init "hello") "quit") := by
  decide

/-- C1, amended: the invariant "pendingQuestion is set iff phase =
AwaitingTraining" holds at session start and is preserved by every
controller step and by training submit/cancel, except for one transition:
a quit issued while the phase is AwaitingTraining moves to Ended with the
pending question left set. -/
theorem C1_theorem :
    pendingInvariant SessionState.init ∧
    (∀ (kb : KnowledgeBase) (st : SessionState) (p : String),
      pendingInvariant st →
      ¬ (phase st = .AwaitingTraining ∧ strLower p = "quit") →
      pendingInvariant (handleInput kb st p)) ∧
    (∀ (kb : KnowledgeBase) (st : SessionState) (ans : String) (auth : Bool),
      pendingInvariant st → pendingInvariant (trainSubmit kb st ans auth).1) ∧
    (∀ (kb : KnowledgeBase) (st : SessionState) (auth : Bool),
      pendingInvariant st → pendingInvariant (trainCancel kb st auth).1) :=
  ⟨by decide, pendingInv_handleInput, pendingInv_trainSubmit,
    pendingInv_trainCancel⟩

/-- C1, witness: the amended preservation applied on a concrete step. -/
theorem C1_witness :
    pendingInvariant (handleInput ⟨[]⟩ SessionState.init "hello") :=
  C1_theorem.2.1 ⟨[]⟩ SessionState.init "hello" (by decide) (by decide)

/-- C2: `find_best_match` returns `none` exactly when every known question
scores (SequenceMatcher ratio, modelled as an exact rational) below the 0.6
cutoff, and any returned question is a member of the list, scores at least
0.6, and attains the maximum score over the whole list. -/
theorem C2_theorem (word : String) (qs : List String) :
    (find_best_match word qs = none ↔
      ∀ x ∈ qs, ratio x.data word.data < 3 / 5) ∧
    (∀ m, find_best_match word qs = some m →
      m ∈ qs ∧ (3 : ℚ) / 5 ≤ ratio m.data word.data ∧
        ∀ x ∈ qs, ratio x.data word.data ≤ ratio m.data word.data) :=
  ⟨fbm_none_iff word qs,
    fun _ h =>
      ⟨(fbm_some_spec h).1, (fbm_some_spec h).2.1,
        fun x hx => ((fbm_some_spec h).2.2 x hx).1⟩⟩

/-- C2, witness: the specification applied on a concrete matching query. -/
theorem C2_witness :
    find_best_match "ab" ["ab"] = some "ab" ∧ "ab" ∈ ["ab"] ∧
      (3 : ℚ) / 5 ≤ ratio "ab".data "ab".data := by
  have h := C2_theorem "ab" ["ab"]
  have h2 := h.2 "ab" fbm_ab
  exact ⟨fbm_ab, h2.1, h2.2.1⟩

/-- C3, counterexample: committing the pending question "HELLO" with answer
"A2" onto a knowledge base that already stores ("hello", "A1") and then
looking "HELLO" up returns the earlier answer "A1", not the committed "A2":
`get_answer` takes the first case-insensitive match and the commit appends
at the end. -/
theorem C3_counterexample :
    get_answer "HELLO"
        (trainSubmit ⟨[⟨"hello", "A1"⟩]⟩
          { chat_active := true, messages := [], awaiting_answer := false,
            current_question := "HELLO", first_interaction := false }
          "A2" true).2 = some "A1" ∧
      some "A1" ≠ some "A2" := by
  decide

/-- C3, amended: the round-trip holds provided no existing entry of the
knowledge base matches the pending question case-insensitively: after an
authorized commit of the pending question with non-empty answer `ans`,
looking up any string equal to the pending question up to casing returns
exactly `ans`. -/
theorem C3_theorem (kb : KnowledgeBase) (st : SessionState) (ans q' : String)
    (hph : phase st = .AwaitingTraining) (hans : ans ≠ "")
    (hfresh : ∀ e ∈ kb.questions,
      strLower e.question ≠ strLower st.current_question)
    (hq : strLower q' = strLower st.current_question) :
    get_answer q' (trainSubmit kb st ans true).2 = some ans := by
  obtain ⟨hca, hcq⟩ := (phase_awaiting_iff st).1 hph
  unfold trainSubmit
  split
  · rename_i hfalse
    rw [hca] at hfalse
    exact absurd hfalse (by simp)
  · split
    · show get_answer q' ⟨kb.questions ++ [⟨st.current_question, ans⟩]⟩ = some ans
      refine get_answer_append_fresh (fun e he => ?_) hq.symm
      rw [hq]
      exact hfresh e he
    · rename_i hguard
      exact absurd ⟨hcq, rfl, hans⟩ hguard

/-- C3, witness: the amended round-trip on a concrete fresh commit. -/
theorem C3_witness :
    get_answer "HI"
      (trainSubmit ⟨[]⟩
        { chat_active := true, messages := [], awaiting_answer := false,
          current_question := "hi", first_interaction := false }
        "yo" true).2 = some "yo" :=
  C3_theorem ⟨[]⟩
    { chat_active := true, messages := [], awaiting_answer := false,
      current_question := "hi", first_interaction := false }
    "yo" "HI" (by decide) (by decide) (by decide) (by decide)

/-- C4, counterexample: the utterance " quit" (leading blank) normalizes to
the termination keyword under trim-then-lowercase, yet the controller does
not end the session: the code compares `prompt.lower()` without trimming,
so " quit" is processed as an ordinary question and the session stays
active (moving to AwaitingTraining), not Ended. -/
theorem C4_counterexample :
    strLower (strTrim " quit") = "quit" ∧
      phase (handleInput ⟨[]⟩ SessionState.init " quit") ≠ Phase.Ended ∧
      (handleInput ⟨[]⟩ SessionState.init " quit").chat_active = true := by
  decide

/-- C4, amended: for an utterance whose lowercasing (without trimming)
equals "quit", delivered in phase Active, the controller appends the user
message and the farewell and moves the phase to Ended. -/
theorem C4_theorem (kb : KnowledgeBase) (st : SessionState) (p : String)
    (hph : phase st = .Active) (hq : strLower p = "quit") :
    handleInput kb st p =
      { st with
          first_interaction := false
          messages := st.messages ++ [⟨.user, p⟩, ⟨.assistant, farewellMsg⟩]
          chat_active := false } ∧
    phase (handleInput kb st p) = .Ended := by
  have hca : st.chat_active = true := by
    by_cases h : st.chat_active = true
    · exact h
    · exfalso
      have h0 : st.chat_active = false := by
        revert h
        cases st.chat_active <;> simp
      rw [(phase_ended_iff st).2 h0] at hph
      exact Phase.noConfusion hph
  have hp0 : p ≠ "" := by
    intro h0
    rw [h0] at hq
    exact absurd hq (by decide)
  have heq : handleInput kb st p =
      { st with
          first_interaction := false
          messages := st.messages ++ [⟨.user, p⟩, ⟨.assistant, farewellMsg⟩]
          chat_active := false } := by
    simp [handleInput, hca, hp0, hq]
  refine ⟨heq, ?_⟩
  rw [heq, phase_ended_iff]

/-- C4, witness: the amended quit behavior on the concrete utterance
"QUIT" from the initial session. -/
theorem C4_witness :
    handleInput ⟨[]⟩ SessionState.init "QUIT" =
      { SessionState.init with
          first_interaction := false
          messages := SessionState.init.messages ++
            [⟨.user, "QUIT"⟩, ⟨.assistant, farewellMsg⟩]
          chat_active := false } ∧
    phase (handleInput ⟨[]⟩ SessionState.init "QUIT") = .Ended :=
  C4_theorem ⟨[]⟩ SessionState.init "QUIT" (by decide) (by decide)

/-- C5: once the phase is Ended, no input changes anything: the controller
returns the session unchanged (so transcript, pending question and phase
are unchanged and the knowledge base is not touched), training submit and
cancel return session and knowledge base unchanged, the persistence-aware
variant leaves the medium unchanged, and the phase stays Ended. -/
theorem C5_theorem (kb : KnowledgeBase) (st : SessionState) (p ans : String)
    (auth : Bool) (m : MediumState) (completed : Nat)
    (hph : phase st = .Ended) :
    handleInput kb st p = st ∧
    trainSubmit kb st ans auth = (st, kb) ∧
    trainCancel kb st auth = (st, kb) ∧
    trainSubmitSteps m kb st ans auth completed = (st, m) ∧
    phase (handleInput kb st p) = .Ended := by
  have hca : st.chat_active = false := (phase_ended_iff st).1 hph
  have h1 : handleInput kb st p = st := by
    unfold handleInput
    rw [hca]
    simp
  refine ⟨h1, ?_, ?_, ?_, by rw [h1]; exact hph⟩
  · unfold trainSubmit
    rw [hca]
    simp
  · unfold trainCancel
    rw [hca]
    simp
  · unfold trainSubmitSteps
    rw [hca]
    simp

/-- C5, witness: a concrete Ended session ignores a concrete input. -/
theorem C5_witness :
    handleInput ⟨[]⟩ ⟨false, [], false, "", true⟩ "hello" =
        ⟨false, [], false, "", true⟩ ∧
      trainSubmit ⟨[]⟩ ⟨false, [], false, "", true⟩ "a" true =
        (⟨false, [], false, "", true⟩, ⟨[]⟩) ∧
      trainCancel ⟨[]⟩ ⟨false, [], false, "", true⟩ true =
        (⟨false, [], false, "", true⟩, ⟨[]⟩) ∧
      trainSubmitSteps .absent ⟨[]⟩ ⟨false, [], false, "", true⟩ "a" true 2 =
        (⟨false, [], false, "", true⟩, .absent) ∧
      phase (handleInput ⟨[]⟩ ⟨false, [], false, "", true⟩ "hello") = .Ended :=
  C5_theorem ⟨[]⟩ ⟨false, [], false, "", true⟩ "hello" "a" true .absent 2
    (by decide)

/-- C6: `load_knowledge_base` is total (neither caught exception escapes
its boundary); an absent medium yields the empty knowledge base with no
error report, a corrupt medium yields the empty knowledge base with the
corruption reported, and the error report happens exactly in the corrupt
case. -/
theorem C6_theorem (m : MediumState) :
    load_knowledge_base .absent = (⟨[]⟩, false) ∧
    load_knowledge_base .corrupt = (⟨[]⟩, true) ∧
    ((load_knowledge_base m).2 = true ↔ m = .corrupt) ∧
    ((load_knowledge_base m).1 = ⟨[]⟩ ∨
      ∃ kb, m = .stores kb ∧ (load_knowledge_base m).1 = kb) := by
  refine ⟨rfl, rfl, ?_, ?_⟩ <;> cases m <;> simp [load_knowledge_base]

/-- C7, counterexample: `save_knowledge_base` is not atomic from the
caller's perspective: it opens the file with mode "w" (truncation in
place), so a failure after the truncate but before the write completes
leaves the medium unparseable — neither the previously persisted state nor
the new one. -/
theorem C7_counterexample :
    runOps (.stores ⟨[⟨"q", "a"⟩]⟩) ((save_ops ⟨[]⟩).take 1) = .corrupt ∧
      MediumState.corrupt ≠ .stores ⟨[⟨"q", "a"⟩]⟩ ∧
      MediumState.corrupt ≠ .stores ⟨[]⟩ := by
  decide

/-- C7, amended: `save_knowledge_base` overwrites the medium in place
(truncate, then write the full serialization): run to completion it stores
the new knowledge base, but an interruption right after the truncate leaves
the medium corrupt, so the previous valid state is not preserved.  The
second half of the claim does hold: a save that fails partway during a
training commit leaves the in-memory session state untouched, because the
session mutations are sequenced after the save call. -/
theorem C7_theorem (m : MediumState) (kb mkb : KnowledgeBase)
    (st : SessionState) (ans : String) (auth : Bool) (completed : Nat)
    (hfail : completed < 2) :
    save_knowledge_base m kb = .stores kb ∧
    runOps m ((save_ops kb).take 1) = .corrupt ∧
    (trainSubmitSteps m mkb st ans auth completed).1 = st := by
  refine ⟨rfl, rfl, ?_⟩
  unfold trainSubmitSteps
  split
  · rfl
  · split
    · rw [if_neg (by omega : ¬ 2 ≤ completed)]
    · rfl

/-- C7, witness: the amended save/failure behavior at a concrete medium,
knowledge base and interruption point. -/
theorem C7_witness :
    save_knowledge_base (.stores ⟨[]⟩) ⟨[⟨"q", "a"⟩]⟩ =
        .stores ⟨[⟨"q", "a"⟩]⟩ ∧
      runOps (.stores ⟨[]⟩) ((save_ops ⟨[⟨"q", "a"⟩]⟩).take 1) = .corrupt ∧
      (trainSubmitSteps (.stores ⟨[]⟩) ⟨[]⟩
          { chat_active := true, messages := [], awaiting_answer := false,
            current_question := "q", first_interaction := false }
          "a" true 1).1 =
        { chat_active := true, messages := [], awaiting_answer := false,
          current_question := "q", first_interaction := false } :=
  C7_theorem (.stores ⟨[]⟩) ⟨[⟨"q", "a"⟩]⟩ ⟨[]⟩
    { chat_active := true, messages := [], awaiting_answer := false,
      current_question := "q", first_interaction := false }
    "a" true 1 (by decide)

/-- C8: an unauthorized submit or cancel in phase AwaitingTraining changes
nothing — session, knowledge base and medium are returned unchanged — and
the training form is not exposed. -/
theorem C8_theorem (kb : KnowledgeBase) (st : SessionState) (ans : String)
    (m : MediumState) (completed : Nat)
    (hph : phase st = .AwaitingTraining) :
    trainSubmit kb st ans false = (st, kb) ∧
    trainCancel kb st false = (st, kb) ∧
    trainSubmitSteps m kb st ans false completed = (st, m) ∧
    trainingFormExposed st false = false := by
  refine ⟨?_, ?_, ?_, ?_⟩
  · unfold trainSubmit
    split
    · rfl
    · split
      · rename_i h
        exact absurd h.2.1 (by simp)
      · rfl
  · unfold trainCancel
    split
    · rfl
    · split
      · rename_i h
        exact absurd h.2 (by simp)
      · rfl
  · unfold trainSubmitSteps
    split
    · rfl
    · split
      · rename_i h
        exact absurd h.2.1 (by simp)
      · rfl
  · unfold trainingFormExposed
    simp

/-- C8, witness: unauthorized submit/cancel on a concrete awaiting session. -/
theorem C8_witness :
    trainSubmit ⟨[]⟩ ⟨true, [], false, "q", false⟩ "a" false =
        (⟨true, [], false, "q", false⟩, ⟨[]⟩) ∧
      trainCancel ⟨[]⟩ ⟨true, [], false, "q", false⟩ false =
        (⟨true, [], false, "q", false⟩, ⟨[]⟩) ∧
      trainSubmitSteps .absent ⟨[]⟩ ⟨true, [], false, "q", false⟩ "a" false 2 =
        (⟨true, [], false, "q", false⟩, .absent) ∧
      trainingFormExposed ⟨true, [], false, "q", false⟩ false = false :=
  C8_theorem ⟨[]⟩ ⟨true, [], false, "q", false⟩ "a" .absent 2 (by decide)

/-- C9, counterexample: with query "abc" and known questions ["abd", "abe"],
both candidates tie at ratio 2/3 ≥ 0.6, yet `find_best_match` returns
"abe", not the first-encountered "abd": `heapq.nlargest` compares the
`(score, candidate)` pairs, so ties are broken towards the
lexicographically greatest string. -/
theorem C9_counterexample :
    ratio "abd".data "abc".data = ratio "abe".data "abc".data ∧
      (3 : ℚ) / 5 ≤ ratio "abd".data "abc".data ∧
      find_best_match "abc" ["abd", "abe"] = some "abe" ∧
      find_best_match "abc" ["abd", "abe"] ≠ some "abd" := by
  refine ⟨by rw [ratio_abd, ratio_abe], by rw [ratio_abd]; norm_num,
    fbm_abc, ?_⟩
  rw [fbm_abc]
  decide

/-- C9, amended: when several known questions tie for the maximum score at
or above the cutoff, `find_best_match` returns the one whose string is
greatest in Python string order (code-point lexicographic, `charListLt`),
because Python `max` compares the `(score, question)` tuples; the first
encountered wins only among fully equal pairs. -/
theorem C9_theorem (w m : String) (qs : List String)
    (h : find_best_match w qs = some m) :
    m ∈ qs ∧
      ∀ x ∈ qs, ratio x.data w.data = ratio m.data w.data →
        charListLt m.data x.data = false :=
  ⟨(fbm_some_spec h).1,
    fun x hx he => ((fbm_some_spec h).2.2 x hx).2 he⟩

/-- C9, witness: the tie-break theorem applied on the concrete tie. -/
theorem C9_witness :
    ("abe" ∈ ["abd", "abe"]) ∧ charListLt "abe".data "abd".data = false := by
  have h := C9_theorem "abc" "abe" ["abd", "abe"] fbm_abc
  exact ⟨h.1, h.2 "abd" (by decide) (by rw [ratio_abd, ratio_abe])⟩

/-- C10: in the matched branch of an Active turn the lookup never fails:
whenever `find_best_match` over the question strings of the knowledge base
returns a question, `get_answer` on that question returns a stored answer,
and the assistant text appended is that answer (never the missing-value
rendering). -/
theorem C10_theorem (kb : KnowledgeBase) (prompt bm : String)
    (h : find_best_match prompt (kb.questions.map QA.question) = some bm) :
    ∃ ans, get_answer bm kb = some ans ∧ answerText bm kb = ans := by
  obtain ⟨ans, hans⟩ := get_answer_of_mem (fbm_some_spec h).1
  refine ⟨ans, hans, ?_⟩
  unfold answerText
  rw [hans]

/-- C10, witness: the matched-branch lookup on a concrete knowledge base. -/
theorem C10_witness :
    ∃ ans, get_answer "ab" ⟨[⟨"ab", "x"⟩]⟩ = some ans ∧
      answerText "ab" ⟨[⟨"ab", "x"⟩]⟩ = ans :=
  C10_theorem ⟨[⟨"ab", "x"⟩]⟩ "ab" "ab" fbm_ab

end ContecBot
